import Mathlib

/-!
Verification of the go-compatible repository: a shallow embedding of the
version model (internal/version/version.go), the invoke wrapper
(internal/invoke/invoke.go) and the orchestration loop (main.go, plus the
alternate main variant), together with theorems settling the claims about
the natural-language specification.
-/

deriving instance DecidableEq for Except

namespace GoCompatible

/-! ## Version data model (internal/version/version.go) -/

/-- Embeds `Version` (version.go:19-24): major, minor, patch are Go `int`
(modelled as `Int`), the pre-release suffix is a string. -/
@[ext]
structure Version where
  Major : Int
  Minor : Int
  Patch : Int
  PreRelease : String
deriving DecidableEq, Repr

/-- Embeds `intcmp` (version.go:125-134). -/
def intcmp (a b : Int) : Int :=
  if a < b then -1 else if a > b then 1 else 0

/-- Embeds `strcmp` (version.go:137-146).  Go compares strings bytewise on
their UTF-8 encoding, which coincides with the codepoint-lexicographic
order `String.lt` used here. -/
def strcmp (x y : String) : Int :=
  if x < y then -1 else if x > y then 1 else 0

/-- Embeds `precmp` (version.go:149-160). -/
def precmp (x y : String) : Int :=
  if x = y then 0
  else if x = "" then 1
  else if y = "" then -1
  else strcmp x y

/-- Embeds `Version.Compare` (version.go:92-104): the `if c := ...; c != 0`
chain written as nested conditionals. -/
def Version.Compare (v w : Version) : Int :=
  if intcmp v.Major w.Major ≠ 0 then intcmp v.Major w.Major
  else if intcmp v.Minor w.Minor ≠ 0 then intcmp v.Minor w.Minor
  else if intcmp v.Patch w.Patch ≠ 0 then intcmp v.Patch w.Patch
  else precmp v.PreRelease w.PreRelease

/-- Embeds `Version.Less` (version.go:107-109). -/
def Version.Less (v w : Version) : Bool :=
  decide (Version.Compare v w < 0)

/-! ### Decimal formatting (strconv.Itoa)

`digitsOf n` is the decimal digit string of `n`, defined with explicit fuel
so that it reduces by evaluation; `digitsOf` models what `strconv.Itoa`
produces for a non-negative `int`. -/

/-- The character for a single decimal digit `n < 10`. -/
def digitChar (n : Nat) : Char := Char.ofNat (48 + n)

/-- Fuel-driven digit expansion; correct whenever `n < fuel`. -/
def digitsOfAux : Nat → Nat → List Char
  | 0, _ => []
  | fuel + 1, n =>
    if n < 10 then [digitChar n]
    else digitsOfAux fuel (n / 10) ++ [digitChar (n % 10)]

/-- Decimal digit list of a natural number, most significant digit first. -/
def digitsOf (n : Nat) : List Char := digitsOfAux (n + 1) n

/-- Embeds `strconv.Itoa` for Go `int`. -/
def itoa (i : Int) : String :=
  if i < 0 then "-" ++ String.mk (digitsOf i.natAbs) else String.mk (digitsOf i.toNat)

/-- Embeds `Version.String` (version.go:112-122): `"<major>.<minor>"`, then
`".<patch>"` only when patch > 0, then the pre-release suffix verbatim when
non-empty. -/
def Version.string (v : Version) : String :=
  (itoa v.Major ++ "." ++ itoa v.Minor)
    ++ (if v.Patch > 0 then "." ++ itoa v.Patch else "")
    ++ (if v.PreRelease ≠ "" then v.PreRelease else "")

/-! ### Parsing (version.go:42-87)

The source matches, after stripping the `"go"` prefix, the RE2 regex
`^(0|[1-9]\d*)\.(0|[1-9]\d*)(?:\.(0|[1-9]\d*))?(.*)$` (version.go:16).
`regexMatch` embeds its matching behaviour on a character list:

* each numeric group tries the branch `0` first, so a group starting with
  `'0'` matches exactly `"0"`; otherwise it greedily takes the maximal
  digit run (backtracking to a shorter run can never help, because the
  character after a shorter run is again a digit);
* the optional patch group participates exactly when a `'.'` followed by a
  digit stands at its position;
* in RE2 `.` does not match a newline and `$` (without the `m` flag)
  matches only at end of text, so the final `(.*)$` group — and hence the
  whole match — fails whenever the remaining text contains `'\n'`. -/

/-- One numeric group `0|[1-9]\d*` matched at the head of `l`, in a
position whose regex continuation always succeeds; returns the matched
digits and the rest. -/
def numGroup (l : List Char) : Option (List Char × List Char) :=
  match l with
  | [] => none
  | c :: cs =>
    if c = '0' then some ([c], cs)
    else if c.isDigit then
      some ((c :: cs).takeWhile Char.isDigit, (c :: cs).dropWhile Char.isDigit)
    else none

/-- The optional patch group and the final `(.*)$` group, matched after
the minor group against the remaining text `r3`: the patch group
participates exactly when a `'.'` followed by a digit stands at its
position, and the whole match fails when the resulting pre-release text
contains a newline. -/
def regexTail (maj minr r3 : List Char) :
    Option (List Char × List Char × Option (List Char) × List Char) :=
  match r3 with
  | [] => some (maj, minr, none, [])
  | d :: r4 =>
    if d = '.' then
      match numGroup r4 with
      | some (pat, r5) =>
        if '\n' ∈ r5 then none else some (maj, minr, some pat, r5)
      | none =>
        if '\n' ∈ d :: r4 then none else some (maj, minr, none, d :: r4)
    else if '\n' ∈ d :: r4 then none else some (maj, minr, none, d :: r4)

/-- The whole-string regex match: major group, minor group, optional patch
group and pre-release remainder. -/
def regexMatch (l : List Char) :
    Option (List Char × List Char × Option (List Char) × List Char) :=
  match numGroup l with
  | none => none
  | some (maj, r1) =>
    match r1 with
    | [] => none
    | c :: r2 =>
      if c = '.' then
        match numGroup r2 with
        | none => none
        | some (minr, r3) => regexTail maj minr r3
      else none

/-- Value of a decimal digit list (the loop inside `strconv.Atoi`). -/
def toNatOfDigits (l : List Char) : Nat :=
  l.foldl (fun acc c => 10 * acc + (c.toNat - 48)) 0

/-- Largest value of a 64-bit Go `int`. -/
def maxI64 : Nat := 9223372036854775807

/-- Embeds `strconv.Atoi` applied to a digit-only group matched by the
regex: it fails exactly when the value overflows a 64-bit `int`. -/
def atoi (l : List Char) : Option Int :=
  if toNatOfDigits l ≤ maxI64 then some (Int.ofNat (toNatOfDigits l)) else none

/-- The part of `Parse` after the `"go"` prefix has been stripped: match
the regex, convert each numeric group, default the patch to 0 when the
group is absent. -/
def parseBody (body : List Char) : Except String Version :=
  match regexMatch body with
  | none => .error ("parse: unable to parse version " ++ String.mk body)
  | some (maj, minr, patOpt, pre) =>
    match atoi maj with
    | none => .error ("parse: invalid major in version " ++ String.mk body)
    | some major =>
      match atoi minr with
      | none => .error ("parse: invalid minor in version " ++ String.mk body)
      | some minor =>
        match patOpt with
        | none => .ok ⟨major, minor, 0, String.mk pre⟩
        | some pat =>
          match atoi pat with
          | none => .error ("parse: invalid patch in version " ++ String.mk body)
          | some patch => .ok ⟨major, minor, patch, String.mk pre⟩

/-- Embeds `Parse` (version.go:42-87): require the `"go"` prefix, then
parse the remainder. -/
def Parse (s : String) : Except String Version :=
  match s.data with
  | c1 :: c2 :: body =>
    if c1 = 'g' ∧ c2 = 'o' then parseBody body
    else .error "parse: version does not have the \"go\" prefix"
  | _ => .error "parse: version does not have the \"go\" prefix"

/-! ### ParseLine (version.go:27-39) -/

/-- Go's `unicode.IsSpace`, which `strings.Fields` splits on. -/
def goIsSpace (c : Char) : Bool :=
  c = ' ' || c = '\t' || c = '\n' || c.toNat = 11 || c.toNat = 12 || c = '\r' ||
  c.toNat = 0x85 || c.toNat = 0xA0 || c.toNat = 0x1680 ||
  (0x2000 ≤ c.toNat && c.toNat ≤ 0x200A) ||
  c.toNat = 0x2028 || c.toNat = 0x2029 || c.toNat = 0x202F ||
  c.toNat = 0x205F || c.toNat = 0x3000

/-- Fuel-driven splitting of a character list into maximal runs of
non-space characters; correct whenever `l.length < fuel`. -/
def fieldsAux : Nat → List Char → List (List Char)
  | 0, _ => []
  | fuel + 1, l =>
    match l with
    | [] => []
    | c :: cs =>
      if goIsSpace c then fieldsAux fuel cs
      else (c :: cs.takeWhile (fun d => !goIsSpace d))
          :: fieldsAux fuel (cs.dropWhile (fun d => !goIsSpace d))

/-- Embeds `strings.Fields`: the whitespace-separated fields of a string. -/
def fields (s : String) : List String :=
  (fieldsAux (s.data.length + 1) s.data).map String.mk

/-- Embeds `ParseLine` (version.go:27-39).  The Go code indexes
`fields[2]` (and `fields[3]` after `"devel"`) without a bounds check, so on
lines with too few fields it panics with an index-out-of-range run-time
error; the panic is modelled as `none`. -/
def ParseLine (line : String) : Option (Except String Version) :=
  match (fields line).get? 2 with
  | none => none
  | some tok =>
    if tok = "devel" then
      match (fields line).get? 3 with
      | none => none
      | some tok2 => some (Parse tok2)
    else some (Parse tok)

/-! ## Release discovery (main.go:117-174) -/

/-- Embeds `release` (main.go:31-34). -/
structure Release where
  goroot : String
  version : Version
deriving DecidableEq, Repr

/-- A directory entry under the SDK root, together with the outcome of
`goversion` on it (main.go:161-174): either the first line of
`go version`'s standard output, or the invocation error's message. -/
structure DirEntry where
  name : String
  isDir : Bool
  line : Except String String
deriving DecidableEq, Repr

/-- `strings.HasPrefix(name, "go")` (main.go:127). -/
def startsWithGo (s : String) : Bool :=
  match s.data with
  | 'g' :: 'o' :: _ => true
  | _ => false

/-- The parsed version of a qualifying candidate (a directory whose name
starts with `"go"`, whose `go version` invocation succeeded and whose
version line parsed); `none` otherwise. -/
def candVer (e : DirEntry) : Option Version :=
  if e.isDir && startsWithGo e.name then
    match e.line with
    | .error _ => none
    | .ok line =>
      match ParseLine line with
      | some (.ok v) => some v
      | _ => none
  else none

/-- The collection loop of `gosdklist` (main.go:125-148): walk the listing
in order, skip non-qualifying entries, abort on a `goversion` or
`ParseLine` error, drop candidates whose version is `Less` than `since`.
`none` models the panic that `ParseLine` can raise. -/
def gosdkCollect (gosdk : String) (since : Version) :
    List DirEntry → Option (Except String (List Release))
  | [] => some (.ok [])
  | e :: rest =>
    if e.isDir && startsWithGo e.name then
      match e.line with
      | .error err => some (.error err)
      | .ok line =>
        match ParseLine line with
        | none => none
        | some (.error perr) => some (.error perr)
        | some (.ok v) =>
          if Version.Less v since then gosdkCollect gosdk since rest
          else
            match gosdkCollect gosdk since rest with
            | none => none
            | some (.error err) => some (.error err)
            | some (.ok l) => some (.ok (⟨gosdk ++ "/" ++ e.name, v⟩ :: l))
    else gosdkCollect gosdk since rest

/-- Insertion of a release into a list sorted by `Version.Less`, placing it
before the first strictly greater element (hence after equal ones). -/
def insertRel (x : Release) : List Release → List Release
  | [] => [x]
  | y :: ys =>
    if Version.Less x.version y.version then x :: y :: ys else y :: insertRel x ys

/-- The `sort.Slice` call of main.go:154-156 under the comparison
`list[i].version.Less(list[j].version)`.  `sort.Slice`'s permutation on
equal keys is implementation-defined (the algorithm is Go's internal
unstable quicksort/pdqsort); it is modelled here as the insertion sort Go
runs on short slices, which agrees with every compliant implementation
whenever all versions are distinct. -/
def sortRel (l : List Release) : List Release :=
  l.foldl (fun acc x => insertRel x acc) []

/-- Embeds `gosdklist` (main.go:119-159): collect, fail with the
"no go releases found" error when nothing qualifies, otherwise sort. -/
def gosdklist (gosdk : String) (since : Version) (entries : List DirEntry) :
    Option (Except String (List Release)) :=
  match gosdkCollect gosdk since entries with
  | none => none
  | some (.error e) => some (.error e)
  | some (.ok l) =>
    if l = [] then some (.error ("no go releases found in " ++ gosdk))
    else some (.ok (sortRel l))

/-! ## Verification runner (main.go:85-115, 179-204) -/

/-- The dynamic type of `invoke.Error.Err` as inspected by the `switch` in
`govet`/`gotest`: `*exec.Error` (the command failed to start),
`*exec.ExitError` (the command ran and exited non-zero), or any other
error value (the `should not be reached` branch). -/
inductive ErrKind where
  | execError
  | exitError
  | otherError
deriving DecidableEq, Repr

/-- The `*invoke.Error` value surfaced by `govet`/`gotest` when they return
a non-nil error: command path, trimmed stderr and the kind of the wrapped
cause (invoke.go:20-25). -/
structure InvokeError where
  cmd : String
  stderr : String
  kind : ErrKind
deriving DecidableEq, Repr

/-- The outcome of `invoke.Run` for one release's verification command:
`none` when the command exited 0, otherwise the kind of the wrapped error
and the whitespace-trimmed stderr (`invoke.Error.Stderr`, invoke.go:53-69).
-/
abbrev RunOutcome := Option (ErrKind × String)

/-- One release of the run together with its command outcome. -/
abbrev Entry := Release × RunOutcome

/-- Embeds `govet` (main.go:179-204); `gotest` (main.go:211-234) is
char-for-char the same classification with a different argv.  On
`*exec.ExitError` the Go code returns `cmderr.Stderr`, a `[]byte` that is
`nil` exactly when the trimmed stderr is empty (`bytes.TrimSpace` returns
`nil` for all-space input); the caller's `msg == nil` test therefore sees
`none` exactly for an empty trimmed stderr, which is how the `[]byte` is
modelled here. -/
def govet (rel : Release) (out : RunOutcome) : Except InvokeError (Option String) :=
  match out with
  | none => .ok none
  | some (k, st) =>
    match k with
    | .execError => .error ⟨rel.goroot ++ "/bin/go", st, .execError⟩
    | .exitError => .ok (if st = "" then none else some st)
    | .otherError => .error ⟨rel.goroot ++ "/bin/go", st, .otherError⟩

/-- One write to the process error stream performed by `run`
(main.go:103-109): the blank-line separator, the
`"using go<version>\n"` header, the diagnostic bytes, or the newline
written after them. -/
inductive Ev where
  | sep
  | header (s : String)
  | msg (s : String)
  | nl
deriving DecidableEq, Repr

/-- The three writes of one diagnostic block (header, message, trailing
newline) for a release version and message. -/
def blockOf (p : Version × String) : List Ev :=
  [Ev.header ("using go" ++ Version.string p.1 ++ "\n"), Ev.msg p.2, Ev.nl]

/-- Embeds the loop of `run` (main.go:94-112): `index` is the
failed-release counter controlling the separator.  Returns the stream of
error-stream writes and the error `run` returns. -/
def runLoop : List Entry → Nat → List Ev × Option InvokeError
  | [], _ => ([], none)
  | (rel, out) :: rest, index =>
    match govet rel out with
    | .error e => ([], some e)
    | .ok none => runLoop rest index
    | .ok (some m) =>
      let r := runLoop rest (index + 1)
      ((if 0 < index then [Ev.sep] else []) ++ blockOf (rel.version, m) ++ r.1, r.2)

/-- Embeds `run` (main.go:85-115), starting with a zero failed-release
counter. -/
def runGo (entries : List Entry) : List Ev × Option InvokeError :=
  runLoop entries 0

/-- The diagnostics `run` prints before the first fatal entry: version and
non-empty trimmed stderr of every exit-non-zero entry. -/
def diagMsgs : List Entry → List (Version × String)
  | [] => []
  | (rel, out) :: rest =>
    match govet rel out with
    | .error _ => []
    | .ok none => diagMsgs rest
    | .ok (some m) => (rel.version, m) :: diagMsgs rest

/-- The error `run` returns: the classification error of the first fatal
entry, if any. -/
def errOf : List Entry → Option InvokeError
  | [] => none
  | (rel, out) :: rest =>
    match govet rel out with
    | .error e => some e
    | .ok _ => errOf rest

/-- Diagnostic blocks each preceded by a separator. -/
def sepBlocks (bs : List (Version × String)) : List Ev :=
  (bs.map (fun b => Ev.sep :: blockOf b)).flatten

/-- Diagnostic blocks joined with a separator strictly between consecutive
blocks. -/
def joinBlocks (bs : List (Version × String)) : List Ev :=
  match bs with
  | [] => []
  | b :: rest => blockOf b ++ sepBlocks rest

/-! ## The alternate main variant (src/unnamed/part_000) -/

/-- Embeds `isFatal` of the alternate variant (part_000:191-208).  The
second test indexes `err.Stderr[0]`, which panics when the trimmed stderr
is empty; the panic is modelled as `none`. -/
def isFatal (stderr : String) : Option Bool :=
  if ("package".data).isPrefixOf stderr.data then some false
  else
    match stderr.data with
    | [] => none
    | c :: _ => if c = '#' then some false else some false

/-- Embeds `govet` of the alternate variant (part_000:161-188): on
`*exec.ExitError` it consults `isFatal`; with any other non-exec error the
`switch` falls through and the function returns `(nil, nil)`. -/
def govetAlt (rel : Release) (out : RunOutcome) :
    Option (Except InvokeError (Option String)) :=
  match out with
  | none => some (.ok none)
  | some (k, st) =>
    match k with
    | .execError => some (.error ⟨rel.goroot ++ "/bin/go", st, .execError⟩)
    | .exitError =>
      match isFatal st with
      | none => none
      | some true => some (.error ⟨rel.goroot ++ "/bin/go", st, .exitError⟩)
      | some false => some (.ok (if st = "" then none else some st))
    | .otherError => some (.ok none)

/-! ## Declarative ordering (the invariant stated in the spec) -/

/-- The pre-release precedence rule the spec states: an empty suffix
outranks a non-empty one, and two distinct non-empty suffixes are ordered
by lexicographic string comparison. -/
def preLT (x y : String) : Prop :=
  (y = "" ∧ x ≠ "") ∨ (x ≠ "" ∧ y ≠ "" ∧ x < y)

/-- The spec's version ordering: by major, then minor, then patch,
numerically, then by `preLT` on the pre-release suffixes. -/
def ltSpec (v w : Version) : Prop :=
  v.Major < w.Major ∨ (v.Major = w.Major ∧
    (v.Minor < w.Minor ∨ (v.Minor = w.Minor ∧
      (v.Patch < w.Patch ∨ (v.Patch = w.Patch ∧
        preLT v.PreRelease w.PreRelease)))))

/-! ## Comparison lemmas -/

lemma intcmp_eq_zero_iff (a b : Int) : intcmp a b = 0 ↔ a = b := by
  unfold intcmp; split_ifs with h1 h2
  · exact iff_of_false (by decide) (by omega)
  · exact iff_of_false (by decide) (by omega)
  · exact iff_of_true rfl (by omega)

lemma intcmp_eq_neg_one_iff (a b : Int) : intcmp a b = -1 ↔ a < b := by
  unfold intcmp; split_ifs with h1 h2
  · exact iff_of_true rfl h1
  · exact iff_of_false (by decide) (by omega)
  · exact iff_of_false (by decide) (by omega)

lemma intcmp_swap (a b : Int) : intcmp b a = - intcmp a b := by
  unfold intcmp; split_ifs <;> omega

lemma intcmp_range (a b : Int) : intcmp a b = -1 ∨ intcmp a b = 0 ∨ intcmp a b = 1 := by
  unfold intcmp; split_ifs <;> omega

lemma strcmp_eq_zero_iff (x y : String) : strcmp x y = 0 ↔ x = y := by
  unfold strcmp
  rcases lt_trichotomy x y with h | h | h
  · rw [if_pos h]; exact iff_of_false (by decide) (ne_of_lt h)
  · subst h; rw [if_neg (lt_irrefl x), if_neg (lt_irrefl x)]; exact iff_of_true rfl rfl
  · rw [if_neg (asymm h), if_pos h]; exact iff_of_false (by decide) (ne_of_gt h)

lemma strcmp_eq_neg_one_iff (x y : String) : strcmp x y = -1 ↔ x < y := by
  unfold strcmp
  rcases lt_trichotomy x y with h | h | h
  · rw [if_pos h]; exact iff_of_true rfl h
  · subst h; rw [if_neg (lt_irrefl x), if_neg (lt_irrefl x)]
    exact iff_of_false (by decide) (lt_irrefl x)
  · rw [if_neg (asymm h), if_pos h]; exact iff_of_false (by decide) (asymm h)

lemma strcmp_swap (x y : String) : strcmp y x = - strcmp x y := by
  unfold strcmp
  rcases lt_trichotomy x y with h | h | h
  · rw [if_neg (show ¬ y < x from asymm h), if_pos (show y > x from h),
      if_pos (show x < y from h)]
    decide
  · subst h
    rw [if_neg (lt_irrefl x), if_neg (show ¬ x > x from lt_irrefl x)]
    decide
  · rw [if_pos (show y < x from h), if_neg (show ¬ x < y from asymm h),
      if_pos (show x > y from h)]

lemma strcmp_range (x y : String) : strcmp x y = -1 ∨ strcmp x y = 0 ∨ strcmp x y = 1 := by
  unfold strcmp; split_ifs <;> omega

lemma precmp_eq_zero_iff (x y : String) : precmp x y = 0 ↔ x = y := by
  unfold precmp
  split_ifs with h1 h2 h3
  · exact iff_of_true rfl h1
  · exact iff_of_false (by decide) h1
  · exact iff_of_false (by decide) h1
  · rw [strcmp_eq_zero_iff]

lemma precmp_eq_neg_one_iff (x y : String) : precmp x y = -1 ↔ preLT x y := by
  unfold precmp preLT
  split_ifs with h1 h2 h3
  · subst h1
    refine iff_of_false (by decide) ?_
    rintro (⟨_, hb⟩ | ⟨_, _, hc⟩)
    · exact hb ‹x = ""›
    · exact lt_irrefl x hc
  · refine iff_of_false (by decide) ?_
    rintro (⟨_, hb⟩ | ⟨hb, _, _⟩) <;> exact hb h2
  · exact iff_of_true rfl (Or.inl ⟨h3, h2⟩)
  · rw [strcmp_eq_neg_one_iff]
    constructor
    · intro h; exact Or.inr ⟨h2, h3, h⟩
    · rintro (⟨hy, _⟩ | ⟨_, _, h⟩)
      · exact absurd hy h3
      · exact h

lemma precmp_swap (x y : String) : precmp y x = - precmp x y := by
  unfold precmp
  by_cases h1 : x = y
  · subst h1; simp
  · rw [if_neg h1, if_neg (fun h => h1 h.symm)]
    by_cases h2 : x = ""
    · have h3 : y ≠ "" := fun h => h1 (h2.trans h.symm)
      rw [if_neg h3, if_pos h2, if_pos h2]
    · by_cases h3 : y = ""
      · rw [if_pos h3, if_neg h2, if_pos h3]; decide
      · rw [if_neg h3, if_neg h2, if_neg h2, if_neg h3, strcmp_swap]

lemma precmp_range (x y : String) :
    precmp x y = -1 ∨ precmp x y = 0 ∨ precmp x y = 1 := by
  have := strcmp_range x y
  unfold precmp; split_ifs <;> omega

lemma compare_cases (v w : Version) :
    Version.Compare v w = -1 ↔
      (intcmp v.Major w.Major = -1 ∨ (intcmp v.Major w.Major = 0 ∧
        (intcmp v.Minor w.Minor = -1 ∨ (intcmp v.Minor w.Minor = 0 ∧
          (intcmp v.Patch w.Patch = -1 ∨ (intcmp v.Patch w.Patch = 0 ∧
            precmp v.PreRelease w.PreRelease = -1)))))) := by
  unfold Version.Compare; split_ifs <;> omega

lemma compare_eq_neg_one_iff (v w : Version) :
    Version.Compare v w = -1 ↔ ltSpec v w := by
  rw [compare_cases]; unfold ltSpec
  simp only [intcmp_eq_neg_one_iff, intcmp_eq_zero_iff, precmp_eq_neg_one_iff]

lemma compare_zero_cases (v w : Version) :
    Version.Compare v w = 0 ↔
      (intcmp v.Major w.Major = 0 ∧ intcmp v.Minor w.Minor = 0 ∧
        intcmp v.Patch w.Patch = 0 ∧ precmp v.PreRelease w.PreRelease = 0) := by
  unfold Version.Compare; split_ifs <;> omega

lemma compare_eq_zero_iff (v w : Version) : Version.Compare v w = 0 ↔ v = w := by
  rw [compare_zero_cases]
  simp only [intcmp_eq_zero_iff, precmp_eq_zero_iff]
  constructor
  · rintro ⟨h1, h2, h3, h4⟩; exact Version.ext h1 h2 h3 h4
  · rintro rfl; exact ⟨rfl, rfl, rfl, rfl⟩

lemma compare_swap (v w : Version) :
    Version.Compare w v = - Version.Compare v w := by
  unfold Version.Compare
  rw [intcmp_swap v.Major w.Major, intcmp_swap v.Minor w.Minor,
    intcmp_swap v.Patch w.Patch, precmp_swap v.PreRelease w.PreRelease]
  split_ifs <;> omega

lemma compare_range (v w : Version) :
    Version.Compare v w = -1 ∨ Version.Compare v w = 0 ∨ Version.Compare v w = 1 := by
  have h4 := precmp_range v.PreRelease w.PreRelease
  have h1 := intcmp_range v.Major w.Major
  have h2 := intcmp_range v.Minor w.Minor
  have h3 := intcmp_range v.Patch w.Patch
  unfold Version.Compare; split_ifs <;> omega

lemma preLT_trans {x y z : String} (h1 : preLT x y) (h2 : preLT y z) : preLT x z := by
  rcases h1 with ⟨hy, hx⟩ | ⟨hx, hy, hxy⟩
  · rcases h2 with ⟨_, hy2⟩ | ⟨hy2, _, _⟩ <;> exact absurd hy hy2
  · rcases h2 with ⟨hz, _⟩ | ⟨_, hz, hyz⟩
    · exact Or.inl ⟨hz, hx⟩
    · exact Or.inr ⟨hx, hz, lt_trans hxy hyz⟩

lemma ltSpec_trans {u v w : Version} (h1 : ltSpec u v) (h2 : ltSpec v w) :
    ltSpec u w := by
  unfold ltSpec at h1 h2 ⊢
  rcases h1 with h | ⟨e1, h | ⟨e2, h | ⟨e3, hp⟩⟩⟩ <;>
    rcases h2 with g | ⟨f1, g | ⟨f2, g | ⟨f3, hq⟩⟩⟩ <;>
    first
      | exact Or.inl (by omega)
      | exact Or.inr ⟨by omega, Or.inl (by omega)⟩
      | exact Or.inr ⟨by omega, Or.inr ⟨by omega, Or.inl (by omega)⟩⟩
      | exact Or.inr ⟨by omega, Or.inr ⟨by omega, Or.inr ⟨by omega, preLT_trans hp hq⟩⟩⟩

/-- C2: `Version.Compare` is a strict total order: every pair compares to
exactly one of -1/0/+1, comparison is antisymmetric and transitive, `0`
means equality, and `-1` holds exactly per the spec's ordering — first by
major, then minor, then patch numerically; on an equal numeric triple an
empty pre-release outranks a non-empty one, and two distinct non-empty
pre-releases compare in lexicographic string order; concretely
`v1.16 > v1.16beta1 > v1.6`. -/
theorem compare_strict_total_order :
    (∀ v w : Version,
      Version.Compare v w = -1 ∨ Version.Compare v w = 0 ∨ Version.Compare v w = 1) ∧
    (∀ v w : Version, Version.Compare v w = 0 ↔ v = w) ∧
    (∀ v w : Version, Version.Compare w v = - Version.Compare v w) ∧
    (∀ u v w : Version, Version.Compare u v = -1 → Version.Compare v w = -1 →
      Version.Compare u w = -1) ∧
    (∀ v w : Version, Version.Compare v w = -1 ↔ ltSpec v w) ∧
    Version.Compare ⟨1, 16, 0, ""⟩ ⟨1, 16, 0, "beta1"⟩ = 1 ∧
    Version.Compare ⟨1, 16, 0, "beta1"⟩ ⟨1, 6, 0, ""⟩ = 1 :=
  ⟨compare_range, compare_eq_zero_iff, compare_swap,
   fun _ _ _ h1 h2 => (compare_eq_neg_one_iff _ _).mpr
     (ltSpec_trans ((compare_eq_neg_one_iff _ _).mp h1)
       ((compare_eq_neg_one_iff _ _).mp h2)),
   compare_eq_neg_one_iff, by decide, by decide⟩

/-- Witness for C2: transitivity applied at `1.6 < 1.16beta1 < 1.16`. -/
theorem compare_strict_total_order_witness :
    Version.Compare ⟨1, 6, 0, ""⟩ ⟨1, 16, 0, ""⟩ = -1 :=
  compare_strict_total_order.2.2.2.1
    ⟨1, 6, 0, ""⟩ ⟨1, 16, 0, "beta1"⟩ ⟨1, 16, 0, ""⟩ (by decide) (by decide)

/-! ## Run-loop lemmas -/

lemma runLoop_spec (entries : List Entry) (index : Nat) :
    runLoop entries index =
      ((if index = 0 then joinBlocks (diagMsgs entries)
        else sepBlocks (diagMsgs entries)),
       errOf entries) := by
  induction entries generalizing index with
  | nil => simp [runLoop, diagMsgs, errOf, joinBlocks, sepBlocks]
  | cons e rest ih =>
    obtain ⟨rel, out⟩ := e
    cases hg : govet rel out with
    | error e' =>
      simp [runLoop, diagMsgs, errOf, hg, joinBlocks, sepBlocks]
    | ok m =>
      cases m with
      | none =>
        simpa [runLoop, diagMsgs, errOf, hg] using ih index
      | some msg =>
        by_cases h0 : index = 0
        · subst h0
          have ih1 := ih 1
          simp [runLoop, diagMsgs, errOf, hg, joinBlocks, sepBlocks, ih1]
        · have ih1 := ih (index + 1)
          simp [runLoop, diagMsgs, errOf, hg, sepBlocks, ih1, h0,
            Nat.pos_of_ne_zero h0]

lemma runGo_spec (entries : List Entry) :
    runGo entries = (joinBlocks (diagMsgs entries), errOf entries) := by
  rw [runGo, runLoop_spec]; simp

lemma errOf_append_of_none {xs : List Entry} (ys : List Entry)
    (h : errOf xs = none) : errOf (xs ++ ys) = errOf ys := by
  induction xs with
  | nil => rfl
  | cons e rest ih =>
    obtain ⟨rel, out⟩ := e
    cases hg : govet rel out with
    | error e' => rw [errOf, hg] at h; cases h
    | ok m =>
      rw [errOf, hg] at h
      rw [List.cons_append, errOf, hg]
      exact ih h

lemma errOf_append_of_some {xs : List Entry} {e : InvokeError} (ys : List Entry)
    (h : errOf xs = some e) : errOf (xs ++ ys) = some e := by
  induction xs with
  | nil => cases h
  | cons x rest ih =>
    obtain ⟨rel, out⟩ := x
    cases hg : govet rel out with
    | error e' =>
      rw [errOf, hg] at h
      rw [List.cons_append, errOf, hg]
      exact h
    | ok m =>
      rw [errOf, hg] at h
      rw [List.cons_append, errOf, hg]
      exact ih h

lemma diagMsgs_append_of_none {xs : List Entry} (ys : List Entry)
    (h : errOf xs = none) : diagMsgs (xs ++ ys) = diagMsgs xs ++ diagMsgs ys := by
  induction xs with
  | nil => rfl
  | cons x rest ih =>
    obtain ⟨rel, out⟩ := x
    cases hg : govet rel out with
    | error e' => rw [errOf, hg] at h; cases h
    | ok m =>
      rw [errOf, hg] at h
      cases m with
      | none => rw [List.cons_append, diagMsgs, hg, diagMsgs, hg]; exact ih h
      | some msg =>
        rw [List.cons_append, diagMsgs, hg, diagMsgs, hg, List.cons_append, ih h]

lemma diagMsgs_append_of_some {xs : List Entry} {e : InvokeError} (ys : List Entry)
    (h : errOf xs = some e) : diagMsgs (xs ++ ys) = diagMsgs xs := by
  induction xs with
  | nil => cases h
  | cons x rest ih =>
    obtain ⟨rel, out⟩ := x
    cases hg : govet rel out with
    | error e' => rw [List.cons_append, diagMsgs, hg, diagMsgs, hg]
    | ok m =>
      rw [errOf, hg] at h
      cases m with
      | none => rw [List.cons_append, diagMsgs, hg, diagMsgs, hg]; exact ih h
      | some msg => rw [List.cons_append, diagMsgs, hg, diagMsgs, hg, ih h]

lemma count_sep_blockOf (b : Version × String) : (blockOf b).count Ev.sep = 0 := rfl

lemma count_sep_sepBlocks (bs : List (Version × String)) :
    (sepBlocks bs).count Ev.sep = bs.length := by
  induction bs with
  | nil => rfl
  | cons b rest ih =>
    show ((Ev.sep :: blockOf b) ++ sepBlocks rest).count Ev.sep = rest.length + 1
    rw [List.count_append, List.count_cons]
    simp [count_sep_blockOf b, ih]
    omega

lemma count_sep_joinBlocks (b : Version × String) (bs : List (Version × String)) :
    (joinBlocks (b :: bs)).count Ev.sep = bs.length := by
  show (blockOf b ++ sepBlocks bs).count Ev.sep = bs.length
  rw [List.count_append, count_sep_blockOf, count_sep_sepBlocks]
  omega

lemma head_joinBlocks (b : Version × String) (bs : List (Version × String)) :
    (joinBlocks (b :: bs)).head? =
      some (Ev.header ("using go" ++ Version.string b.1 ++ "\n")) := rfl

lemma getLast_sepBlocks (bs : List (Version × String)) (h : bs ≠ []) :
    (sepBlocks bs).getLast? = some Ev.nl := by
  induction bs with
  | nil => exact absurd rfl h
  | cons b rest ih =>
    show ((Ev.sep :: blockOf b) ++ sepBlocks rest).getLast? = some Ev.nl
    by_cases hr : rest = []
    · subst hr; rfl
    · rw [List.getLast?_append_of_ne_nil _ (by
        cases rest with
        | nil => exact absurd rfl hr
        | cons c cs => exact fun hh => List.cons_ne_nil _ _ hh)]
      exact ih hr

lemma getLast_joinBlocks (b : Version × String) (bs : List (Version × String)) :
    (joinBlocks (b :: bs)).getLast? = some Ev.nl := by
  show (blockOf b ++ sepBlocks bs).getLast? = some Ev.nl
  by_cases hr : bs = []
  · subst hr; rfl
  · rw [List.getLast?_append_of_ne_nil _ (by
      cases bs with
      | nil => exact absurd rfl hr
      | cons c cs => exact fun hh => List.cons_ne_nil _ _ hh)]
    exact getLast_sepBlocks bs hr

/-- C8: the error stream written by a run is the diagnostic blocks joined
by blank-line separators: one separator strictly between consecutive
blocks — so N printed diagnostics come with exactly N−1 separators — and
the stream starts with the first block's `"using go<version>"` header and
ends with the final block's newline, never with a separator; every
diagnostic is preceded by its own release header inside its block. -/
theorem separator_invariant :
    ∀ entries : List Entry,
      (runGo entries).1 = joinBlocks (diagMsgs entries) ∧
      (∀ b bs, diagMsgs entries = b :: bs →
        ((runGo entries).1.count Ev.sep = (diagMsgs entries).length - 1 ∧
          (runGo entries).1.head? =
            some (Ev.header ("using go" ++ Version.string b.1 ++ "\n")) ∧
          (runGo entries).1.getLast? = some Ev.nl)) := by
  intro entries
  have hs := runGo_spec entries
  refine ⟨by rw [hs], ?_⟩
  intro b bs hd
  rw [hs, hd]
  exact ⟨by rw [count_sep_joinBlocks]; simp,
    head_joinBlocks b bs, getLast_joinBlocks b bs⟩

/-- Witness for C8 at a two-diagnostic run. -/
theorem separator_invariant_witness :
    (runGo [(⟨"/sdk/go1.15", ⟨1, 15, 0, ""⟩⟩, some (ErrKind.exitError, "boom")),
            (⟨"/sdk/go1.16", ⟨1, 16, 0, ""⟩⟩, some (ErrKind.exitError, "pow"))]).1.count
        Ev.sep = 1 ∧
    (runGo [(⟨"/sdk/go1.15", ⟨1, 15, 0, ""⟩⟩, some (ErrKind.exitError, "boom")),
            (⟨"/sdk/go1.16", ⟨1, 16, 0, ""⟩⟩, some (ErrKind.exitError, "pow"))]).1.getLast? =
      some Ev.nl := by
  have h := (separator_invariant
    [(⟨"/sdk/go1.15", ⟨1, 15, 0, ""⟩⟩, some (ErrKind.exitError, "boom")),
     (⟨"/sdk/go1.16", ⟨1, 16, 0, ""⟩⟩, some (ErrKind.exitError, "pow"))]).2
    (⟨1, 15, 0, ""⟩, "boom") [(⟨1, 16, 0, ""⟩, "pow")] rfl
  exact ⟨h.1, h.2.2⟩

/-- C1 (amended): for every release of the run, classify the command
result: exit status 0 produces no output and the loop continues as if the
release were absent; failure to start (`*exec.Error`) aborts the whole run
at once with that invocation error, the output staying exactly what the
prior releases printed and no later release being processed; exit non-zero
(`*exec.ExitError`) with a non-empty trimmed stderr appends that stderr as
a diagnostic block and the loop continues — but an exit non-zero whose
trimmed stderr is empty produces no output at all (the `msg == nil` test
treats it as clean), which amends the claim's unconditional third branch. -/
theorem run_classification :
    ∀ (pre post : List Entry) (rel : Release) (st m : String),
      errOf pre = none → m ≠ "" →
      (runGo (pre ++ (rel, none) :: post) = runGo (pre ++ post) ∧
       runGo (pre ++ (rel, some (ErrKind.exitError, "")) :: post) =
         runGo (pre ++ post) ∧
       runGo (pre ++ (rel, some (ErrKind.execError, st)) :: post) =
         ((runGo pre).1, some ⟨rel.goroot ++ "/bin/go", st, ErrKind.execError⟩) ∧
       runGo (pre ++ (rel, some (ErrKind.exitError, m)) :: post) =
         (joinBlocks (diagMsgs pre ++ (rel.version, m) :: diagMsgs post),
          errOf post)) := by
  intro pre post rel st m hpre hm
  have hclean : govet rel none = .ok none := rfl
  have hempty : govet rel (some (ErrKind.exitError, "")) = .ok none := rfl
  have hexec : govet rel (some (ErrKind.execError, st)) =
      .error ⟨rel.goroot ++ "/bin/go", st, ErrKind.execError⟩ := rfl
  have hexit : govet rel (some (ErrKind.exitError, m)) = .ok (some m) := by
    show Except.ok (if m = "" then none else some m) = .ok (some m)
    rw [if_neg hm]
  refine ⟨?_, ?_, ?_, ?_⟩
  · rw [runGo_spec, runGo_spec,
      diagMsgs_append_of_none _ hpre, diagMsgs_append_of_none _ hpre,
      errOf_append_of_none _ hpre, errOf_append_of_none _ hpre,
      diagMsgs, hclean, errOf, hclean]
  · rw [runGo_spec, runGo_spec,
      diagMsgs_append_of_none _ hpre, diagMsgs_append_of_none _ hpre,
      errOf_append_of_none _ hpre, errOf_append_of_none _ hpre,
      diagMsgs, hempty, errOf, hempty]
  · rw [runGo_spec, runGo_spec,
      diagMsgs_append_of_none _ hpre, errOf_append_of_none _ hpre,
      diagMsgs, hexec, errOf, hexec]
    rw [List.append_nil]
  · rw [runGo_spec,
      diagMsgs_append_of_none _ hpre, errOf_append_of_none _ hpre,
      diagMsgs, hexit, errOf, hexit]

/-- Counterexample to C1 as stated: a command that ran and exited non-zero
but whose trimmed stderr is empty is not reported at all — the run prints
nothing for it (no header, no diagnostic) and returns no error, exactly as
for a clean exit, while the claim requires the captured stderr to be
reported as a diagnostic for that release. -/
theorem run_exit_empty_stderr_cex :
    runGo [(⟨"/sdk/go1.16", ⟨1, 16, 0, ""⟩⟩, some (ErrKind.exitError, ""))] =
      ([], none) ∧
    govet ⟨"/sdk/go1.16", ⟨1, 16, 0, ""⟩⟩ (some (ErrKind.exitError, "")) =
      .ok none :=
  ⟨rfl, rfl⟩

/-- Witness for C1 with one fatal and one diagnostic release. -/
theorem run_classification_witness :
    runGo [(⟨"/sdk/go1.15", ⟨1, 15, 0, ""⟩⟩, none)] = runGo [] ∧
    runGo [(⟨"/sdk/go1.15", ⟨1, 15, 0, ""⟩⟩, some (ErrKind.exitError, ""))] =
      runGo [] ∧
    runGo [(⟨"/sdk/go1.15", ⟨1, 15, 0, ""⟩⟩, some (ErrKind.execError, "no such file"))] =
      ((runGo []).1, some ⟨"/sdk/go1.15" ++ "/bin/go", "no such file", ErrKind.execError⟩) ∧
    runGo [(⟨"/sdk/go1.15", ⟨1, 15, 0, ""⟩⟩, some (ErrKind.exitError, "boom"))] =
      (joinBlocks (diagMsgs [] ++ (⟨1, 15, 0, ""⟩, "boom") :: diagMsgs []), errOf []) :=
  run_classification [] [] ⟨"/sdk/go1.15", ⟨1, 15, 0, ""⟩⟩ "no such file" "boom"
    rfl (by decide)

/-- C10: in the alternate main variant, `isFatal` returns `false` on every
invocation error whose stderr is non-empty (every branch that is reached,
including the fall-through, returns `false`), so a verification command
that ran and exited non-zero with non-empty stderr is never reclassified
as fatal there: the variant's `govet` always reports it as a diagnostic. -/
theorem isFatal_always_false :
    ∀ s : String, s ≠ "" →
      (isFatal s = some false ∧
        ∀ rel : Release,
          govetAlt rel (some (ErrKind.exitError, s)) = some (.ok (some s))) := by
  intro s hs
  have hd : s.data ≠ [] := by
    intro h
    exact hs (String.ext (h.trans rfl))
  have hf : isFatal s = some false := by
    unfold isFatal
    split_ifs with h1
    · rfl
    · cases hdata : s.data with
      | nil => exact absurd hdata hd
      | cons c cs => by_cases hc : c = '#' <;> simp [hc]
  refine ⟨hf, fun rel => ?_⟩
  simp only [govetAlt, hf, if_neg hs]

/-- Witness for C10 at the stderr text `"boom"`. -/
theorem isFatal_always_false_witness :
    isFatal "boom" = some false ∧
      govetAlt ⟨"/sdk/go1.15", ⟨1, 15, 0, ""⟩⟩ (some (ErrKind.exitError, "boom")) =
        some (.ok (some "boom")) := by
  have h := isFatal_always_false "boom" (by decide)
  exact ⟨h.1, h.2 _⟩

/-! ## Discovery lemmas -/

lemma insertRel_perm (x : Release) (l : List Release) :
    (insertRel x l).Perm (x :: l) := by
  induction l with
  | nil => exact List.Perm.refl _
  | cons y ys ih =>
    unfold insertRel
    split_ifs
    · exact List.Perm.refl _
    · exact (ih.cons y).trans (List.Perm.swap x y ys)

lemma foldl_insertRel_perm (l acc : List Release) :
    (l.foldl (fun a x => insertRel x a) acc).Perm (acc ++ l) := by
  induction l generalizing acc with
  | nil => simp
  | cons a l ih =>
    have h1 : (List.foldl (fun a x => insertRel x a) (insertRel a acc) l).Perm
        (insertRel a acc ++ l) := ih _
    have h2 : (insertRel a acc ++ l).Perm ((a :: acc) ++ l) :=
      (insertRel_perm a acc).append_right l
    have h3 : ((a :: acc) ++ l).Perm (acc ++ a :: l) := List.perm_middle.symm
    exact (h1.trans h2).trans h3

lemma sortRel_perm (l : List Release) : (sortRel l).Perm l := by
  simpa using foldl_insertRel_perm l []

lemma collect_map_version (g : String) (since : Version) :
    ∀ (entries : List DirEntry) (l : List Release),
      gosdkCollect g since entries = some (.ok l) →
      l.map Release.version =
        (entries.filterMap candVer).filter (fun v => !(Version.Less v since)) := by
  intro entries
  induction entries with
  | nil =>
    intro l h
    rw [gosdkCollect] at h
    cases h; rfl
  | cons e rest ih =>
    intro l h
    rw [gosdkCollect] at h
    by_cases hq : (e.isDir && startsWithGo e.name) = true
    · rw [if_pos hq] at h
      have hcv : candVer e =
          (match e.line with
            | .error _ => none
            | .ok line =>
              match ParseLine line with
              | some (.ok v) => some v
              | _ => none) := by
        unfold candVer; rw [if_pos hq]
      cases hline : e.line with
      | error err => simp only [hline] at h; cases h
      | ok line =>
        simp only [hline] at h hcv
        cases hp : ParseLine line with
        | none => simp only [hp] at h; cases h
        | some r =>
          cases r with
          | error perr => simp only [hp] at h; cases h
          | ok v =>
            simp only [hp] at h hcv
            rw [List.filterMap_cons_some hcv]
            by_cases hless : Version.Less v since = true
            · rw [if_pos hless] at h
              rw [List.filter_cons,
                if_neg (by simp [hless] : ¬ ((fun v => !(Version.Less v since)) v = true))]
              exact ih l h
            · rw [if_neg hless] at h
              have hbf : Version.Less v since = false := by
                cases hb : Version.Less v since
                · rfl
                · exact absurd hb hless
              cases hc : gosdkCollect g since rest with
              | none => rw [hc] at h; cases h
              | some r2 =>
                cases r2 with
                | error err => rw [hc] at h; cases h
                | ok l2 =>
                  rw [hc] at h
                  cases h
                  rw [List.filter_cons,
                    if_pos (by simp [hbf] : ((fun v => !(Version.Less v since)) v = true)),
                    List.map_cons]
                  exact congrArg (v :: ·) (ih l2 hc)
    · rw [if_neg hq] at h
      have hcv : candVer e = none := by unfold candVer; rw [if_neg hq]
      rw [List.filterMap_cons_none hcv]
      exact ih l h

lemma gosdklist_ok {g : String} {since : Version} {entries : List DirEntry}
    {l : List Release} (h : gosdklist g since entries = some (.ok l)) :
    ∃ l0, gosdkCollect g since entries = some (.ok l0) ∧ l0 ≠ [] ∧ l = sortRel l0 := by
  unfold gosdklist at h
  cases hc : gosdkCollect g since entries with
  | none => rw [hc] at h; cases h
  | some r =>
    cases r with
    | error e => simp only [hc] at h; cases h
    | ok l0 =>
      simp only [hc] at h
      by_cases h0 : l0 = []
      · rw [if_pos h0] at h; cases h
      · rw [if_neg h0] at h
        cases h
        exact ⟨l0, rfl, h0, rfl⟩

/-- Sample SDK listing entries used by the concrete discovery claims. -/
def entry14 : DirEntry := ⟨"go1.14", true, .ok "go version go1.14 linux/amd64"⟩

def entry15 : DirEntry := ⟨"go1.15", true, .ok "go version go1.15 linux/amd64"⟩

def entry16 : DirEntry := ⟨"go1.16", true, .ok "go version go1.16 linux/amd64"⟩

def entry00 : DirEntry := ⟨"go0.0fake", true, .ok "go version go0.0fake linux/amd64"⟩

/-- C5: discovery never returns an empty success — a successful
`gosdklist` result is non-empty, and when the collection loop finishes
with zero qualifying releases `gosdklist` fails with the
"no go releases found" discovery error instead. -/
theorem discovery_no_empty_success :
    ∀ (g : String) (since : Version) (entries : List DirEntry) (l : List Release),
      (gosdklist g since entries = some (.ok l) → l ≠ []) ∧
      (gosdkCollect g since entries = some (.ok ([] : List Release)) →
        gosdklist g since entries =
          some (.error ("no go releases found in " ++ g))) := by
  intro g since entries l
  constructor
  · intro h
    obtain ⟨l0, _, h0, rfl⟩ := gosdklist_ok h
    intro hnil
    have hp := sortRel_perm l0
    rw [hnil] at hp
    exact h0 hp.symm.eq_nil
  · intro hc
    simp only [gosdklist, hc, if_pos rfl, if_true]

/-- Witness for C5: a one-candidate listing succeeds non-empty; an empty
listing produces the discovery error. -/
theorem discovery_no_empty_success_witness :
    (([⟨"/sdk/go1.16", ⟨1, 16, 0, ""⟩⟩] : List Release) ≠ []) ∧
    gosdklist "/sdk" ⟨0, 0, 0, ""⟩ [] =
      some (.error ("no go releases found in " ++ "/sdk")) :=
  ⟨(discovery_no_empty_success "/sdk" ⟨0, 0, 0, ""⟩ [entry16]
      [⟨"/sdk/go1.16", ⟨1, 16, 0, ""⟩⟩]).1 rfl,
   (discovery_no_empty_success "/sdk" ⟨0, 0, 0, ""⟩ [] []).2 rfl⟩

/-- C4 (amended): discovery keeps exactly the candidates whose parsed
version is not strictly `Less` than `since` — the successful output's
versions are a permutation of the kept candidate versions.  When `since`
is the zero value this filters exactly the candidates whose version
compares strictly below the zero version (versions `0.0.0` with a
non-empty pre-release suffix); every other candidate is kept.  For
candidate versions {1.16, 1.14, 1.15} and since = 1.15, the result is
exactly [1.15, 1.16], sorted ascending. -/
theorem discovery_filtering :
    ∀ (g : String) (since : Version) (entries : List DirEntry) (l : List Release),
      gosdklist g since entries = some (.ok l) →
      ((l.map Release.version).Perm
          ((entries.filterMap candVer).filter (fun v => !(Version.Less v since))) ∧
        gosdklist "/sdk" ⟨1, 15, 0, ""⟩ [entry16, entry14, entry15] =
          some (.ok [⟨"/sdk/go1.15", ⟨1, 15, 0, ""⟩⟩,
                     ⟨"/sdk/go1.16", ⟨1, 16, 0, ""⟩⟩])) := by
  intro g since entries l h
  obtain ⟨l0, hc, _, rfl⟩ := gosdklist_ok h
  refine ⟨?_, rfl⟩
  have hper : ((sortRel l0).map Release.version).Perm (l0.map Release.version) :=
    (sortRel_perm l0).map _
  rw [collect_map_version g since entries l0 hc] at hper
  exact hper

/-- Counterexample to C4's zero-version clause as stated: with `since`
unset (the zero value), the candidate directory `go0.0fake` reports a
version that parses to `0.0.0` with pre-release `"fake"`, which compares
strictly below the zero version, so the candidate is discarded — the
claim's "no candidate is filtered out" fails for it. -/
theorem discovery_zero_since_cex :
    ParseLine "go version go0.0fake linux/amd64" =
      some (.ok ⟨0, 0, 0, "fake"⟩) ∧
    Version.Less ⟨0, 0, 0, "fake"⟩ ⟨0, 0, 0, ""⟩ = true ∧
    gosdklist "/sdk" ⟨0, 0, 0, ""⟩ [entry00, entry16] =
      some (.ok [⟨"/sdk/go1.16", ⟨1, 16, 0, ""⟩⟩]) :=
  ⟨rfl, rfl, rfl⟩

/-- Witness for C4 at the spec's own discovery example. -/
theorem discovery_filtering_witness :
    ((([⟨"/sdk/go1.15", ⟨1, 15, 0, ""⟩⟩,
        ⟨"/sdk/go1.16", ⟨1, 16, 0, ""⟩⟩] : List Release).map Release.version).Perm
      (([entry16, entry14, entry15].filterMap candVer).filter
        (fun v => !(Version.Less v ⟨1, 15, 0, ""⟩))) ∧
      gosdklist "/sdk" ⟨1, 15, 0, ""⟩ [entry16, entry14, entry15] =
        some (.ok [⟨"/sdk/go1.15", ⟨1, 15, 0, ""⟩⟩,
                   ⟨"/sdk/go1.16", ⟨1, 16, 0, ""⟩⟩])) :=
  discovery_filtering "/sdk" ⟨1, 15, 0, ""⟩ [entry16, entry14, entry15]
    [⟨"/sdk/go1.15", ⟨1, 15, 0, ""⟩⟩, ⟨"/sdk/go1.16", ⟨1, 16, 0, ""⟩⟩] rfl

/-! ## Decimal digit lemmas -/

lemma digitsOfAux_irrel : ∀ (f g n : Nat), n < f → n < g →
    digitsOfAux f n = digitsOfAux g n := by
  intro f
  induction f with
  | zero => intro g n hf; omega
  | succ f ih =>
    intro g n hf hg
    cases g with
    | zero => omega
    | succ g =>
      show (if n < 10 then [digitChar n]
            else digitsOfAux f (n / 10) ++ [digitChar (n % 10)]) =
          (if n < 10 then [digitChar n]
            else digitsOfAux g (n / 10) ++ [digitChar (n % 10)])
      by_cases h : n < 10
      · rw [if_pos h, if_pos h]
      · rw [if_neg h, if_neg h, ih g (n / 10) (by omega) (by omega)]

lemma digitsOf_eq (n : Nat) :
    digitsOf n = if n < 10 then [digitChar n]
      else digitsOf (n / 10) ++ [digitChar (n % 10)] := by
  show digitsOfAux (n + 1) n = _
  by_cases h : n < 10
  · rw [if_pos h]
    show (if n < 10 then _ else _) = _
    rw [if_pos h]
  · rw [if_neg h]
    show (if n < 10 then _ else _) = _
    rw [if_neg h]
    rw [digitsOfAux_irrel n (n / 10 + 1) (n / 10) (by omega) (by omega)]
    rfl

lemma digitChar_toNat {n : Nat} (h : n < 10) : (digitChar n).toNat = 48 + n := by
  interval_cases n <;> decide

lemma digitChar_isDigit {n : Nat} (h : n < 10) : (digitChar n).isDigit = true := by
  interval_cases n <;> decide

lemma digitChar_ne_zero {n : Nat} (h1 : n < 10) (h2 : n ≠ 0) : digitChar n ≠ '0' := by
  interval_cases n <;> first | exact absurd rfl h2 | decide

lemma digitsOf_ne_nil (n : Nat) : digitsOf n ≠ [] := by
  rw [digitsOf_eq]
  split_ifs
  · exact List.cons_ne_nil _ _
  · intro h; simp at h

lemma toNatOfDigits_append (l : List Char) (c : Char) :
    toNatOfDigits (l ++ [c]) = 10 * toNatOfDigits l + (c.toNat - 48) := by
  unfold toNatOfDigits
  rw [List.foldl_append]
  rfl

lemma toNatOfDigits_digitsOf (n : Nat) : toNatOfDigits (digitsOf n) = n := by
  induction n using Nat.strong_induction_on with
  | _ n ih =>
    rw [digitsOf_eq]
    split_ifs with h
    · show 10 * 0 + ((digitChar n).toNat - 48) = n
      rw [digitChar_toNat h]
      omega
    · rw [toNatOfDigits_append, ih (n / 10) (by omega),
        digitChar_toNat (show n % 10 < 10 by omega)]
      omega

lemma digitsOf_all_digits (n : Nat) : ∀ c ∈ digitsOf n, c.isDigit = true := by
  induction n using Nat.strong_induction_on with
  | _ n ih =>
    rw [digitsOf_eq]
    split_ifs with h
    · intro c hc
      rw [List.mem_singleton] at hc
      subst hc
      exact digitChar_isDigit h
    · intro c hc
      rw [List.mem_append] at hc
      rcases hc with hc | hc
      · exact ih (n / 10) (by omega) c hc
      · rw [List.mem_singleton] at hc
        subst hc
        exact digitChar_isDigit (show n % 10 < 10 by omega)

lemma digitsOf_head_ne_zero : ∀ n : Nat, n ≠ 0 →
    ∀ c, (digitsOf n).head? = some c → c ≠ '0' := by
  intro n
  induction n using Nat.strong_induction_on with
  | _ n ih =>
    intro hn c hc
    rw [digitsOf_eq] at hc
    split_ifs at hc with h
    · rw [List.head?_cons, Option.some.injEq] at hc
      subst hc
      exact digitChar_ne_zero h hn
    · cases hd : digitsOf (n / 10) with
      | nil => exact absurd hd (digitsOf_ne_nil _)
      | cons a as =>
        rw [hd, List.cons_append, List.head?_cons, Option.some.injEq] at hc
        subst hc
        exact ih (n / 10) (by omega) (by omega) a (by rw [hd]; rfl)

/-! ## takeWhile/dropWhile over an all-true block -/

lemma takeWhile_append_all (p : Char → Bool) : ∀ (l r : List Char),
    (∀ c ∈ l, p c = true) → (∀ c, r.head? = some c → p c = false) →
    (l ++ r).takeWhile p = l := by
  intro l
  induction l with
  | nil =>
    intro r _ hr
    cases r with
    | nil => rfl
    | cons c cs =>
      rw [List.nil_append, List.takeWhile_cons, hr c rfl]
      rfl
  | cons a as ih =>
    intro r hl hr
    rw [List.cons_append, List.takeWhile_cons, hl a (List.mem_cons_self a as)]
    rw [ih r (fun c hc => hl c (List.mem_cons_of_mem a hc)) hr]
    rfl

lemma dropWhile_append_all (p : Char → Bool) : ∀ (l r : List Char),
    (∀ c ∈ l, p c = true) → (∀ c, r.head? = some c → p c = false) →
    (l ++ r).dropWhile p = r := by
  intro l
  induction l with
  | nil =>
    intro r _ hr
    cases r with
    | nil => rfl
    | cons c cs =>
      rw [List.nil_append, List.dropWhile_cons, hr c rfl]
      rfl
  | cons a as ih =>
    intro r hl hr
    rw [List.cons_append, List.dropWhile_cons, hl a (List.mem_cons_self a as)]
    show (as ++ r).dropWhile p = r
    exact ih r (fun c hc => hl c (List.mem_cons_of_mem a hc)) hr

/-- The regex numeric group matched at the front of a canonical digit
string `digitsOf n` followed by a non-digit (or nothing). -/
lemma numGroup_digitsOf (n : Nat) (r : List Char)
    (hr : ∀ c, r.head? = some c → c.isDigit = false) :
    numGroup (digitsOf n ++ r) = some (digitsOf n, r) := by
  by_cases h0 : n = 0
  · subst h0
    show numGroup ('0' :: r) = some (['0'], r)
    rfl
  · obtain ⟨a, as, hd⟩ : ∃ a as, digitsOf n = a :: as := by
      cases hcase : digitsOf n with
      | nil => exact absurd hcase (digitsOf_ne_nil n)
      | cons a as => exact ⟨a, as, rfl⟩
    have hall : ∀ c ∈ a :: as, c.isDigit = true := by
      rw [← hd]; exact digitsOf_all_digits n
    have ha : a.isDigit = true := hall a (List.mem_cons_self a as)
    have ha0 : a ≠ '0' := digitsOf_head_ne_zero n h0 a (by rw [hd]; rfl)
    rw [hd, List.cons_append]
    show numGroup (a :: (as ++ r)) = some (a :: as, r)
    simp only [numGroup]
    rw [if_neg ha0, if_pos ha]
    rw [show a :: (as ++ r) = (a :: as) ++ r from rfl]
    rw [takeWhile_append_all _ _ _ hall hr, dropWhile_append_all _ _ _ hall hr]

lemma head_nd_dot (l : List Char) :
    ∀ c, ('.' :: l).head? = some c → c.isDigit = false := by
  intro c hc
  rw [List.head?_cons, Option.some.injEq] at hc
  subst hc
  decide

lemma head_nd_nil : ∀ c : Char, ([] : List Char).head? = some c → c.isDigit = false := by
  intro c hc
  cases hc

/-- The regex match of the canonical two-component numeral `<M>.<N>`. -/
lemma regexMatch_two (M N : Nat) :
    regexMatch (digitsOf M ++ '.' :: digitsOf N) =
      some (digitsOf M, digitsOf N, none, []) := by
  have h1 := numGroup_digitsOf M ('.' :: digitsOf N) (head_nd_dot _)
  have h2 := numGroup_digitsOf N [] head_nd_nil
  rw [List.append_nil] at h2
  simp only [regexMatch, regexTail, h1, h2]
  simp

/-- The regex match of the canonical three-component numeral `<M>.<N>.<P>`. -/
lemma regexMatch_three (M N P : Nat) :
    regexMatch (digitsOf M ++ '.' :: (digitsOf N ++ '.' :: digitsOf P)) =
      some (digitsOf M, digitsOf N, some (digitsOf P), []) := by
  have h1 := numGroup_digitsOf M ('.' :: (digitsOf N ++ '.' :: digitsOf P))
    (head_nd_dot _)
  have h2 := numGroup_digitsOf N ('.' :: digitsOf P) (head_nd_dot _)
  have h3 := numGroup_digitsOf P [] head_nd_nil
  rw [List.append_nil] at h3
  simp only [regexMatch, regexTail, h1, h2, h3]
  simp

/-- The regex match of `<M>.<N><suffix>` for a pre-release suffix that does
not start with a digit or a dot and contains no newline. -/
lemma regexMatch_suffix (M N : Nat) (suf : List Char)
    (h1 : ∀ c, suf.head? = some c → c.isDigit = false)
    (h2 : ∀ c, suf.head? = some c → c ≠ '.')
    (h3 : '\n' ∉ suf) :
    regexMatch (digitsOf M ++ '.' :: (digitsOf N ++ suf)) =
      some (digitsOf M, digitsOf N, none, suf) := by
  cases suf with
  | nil =>
    rw [List.append_nil]
    exact regexMatch_two M N
  | cons d r4 =>
    have g1 := numGroup_digitsOf M ('.' :: (digitsOf N ++ d :: r4)) (head_nd_dot _)
    have g2 := numGroup_digitsOf N (d :: r4) h1
    simp only [regexMatch, regexTail, g1, g2, if_neg (h2 d rfl)]
    simp [h3]

lemma atoi_digitsOf {n : Nat} (h : n ≤ maxI64) :
    atoi (digitsOf n) = some (Int.ofNat n) := by
  unfold atoi
  rw [toNatOfDigits_digitsOf, if_pos h]

lemma itoa_ofNat (n : Nat) : itoa (Int.ofNat n) = String.mk (digitsOf n) := by
  unfold itoa
  simp only [Int.ofNat_eq_coe]
  rw [if_neg (by omega : ¬ ((n : Int) < 0))]
  norm_num

lemma parse_go (body : List Char) :
    Parse (String.mk ('g' :: 'o' :: body)) = parseBody body := by
  show (if 'g' = 'g' ∧ 'o' = 'o' then parseBody body
        else .error "parse: version does not have the \"go\" prefix") = parseBody body
  rw [if_pos ⟨rfl, rfl⟩]

lemma parseBody_two {M N : Nat} (hM : M ≤ maxI64) (hN : N ≤ maxI64) :
    parseBody (digitsOf M ++ '.' :: digitsOf N) =
      .ok ⟨Int.ofNat M, Int.ofNat N, 0, ""⟩ := by
  simp only [parseBody, regexMatch_two M N, atoi_digitsOf hM, atoi_digitsOf hN]

lemma parseBody_three {M N P : Nat} (hM : M ≤ maxI64) (hN : N ≤ maxI64)
    (hP : P ≤ maxI64) :
    parseBody (digitsOf M ++ '.' :: (digitsOf N ++ '.' :: digitsOf P)) =
      .ok ⟨Int.ofNat M, Int.ofNat N, Int.ofNat P, ""⟩ := by
  simp only [parseBody, regexMatch_three M N P, atoi_digitsOf hM, atoi_digitsOf hN,
    atoi_digitsOf hP]

lemma parseBody_suffix {M N : Nat} (hM : M ≤ maxI64) (hN : N ≤ maxI64)
    (suf : List Char)
    (h1 : ∀ c, suf.head? = some c → c.isDigit = false)
    (h2 : ∀ c, suf.head? = some c → c ≠ '.')
    (h3 : '\n' ∉ suf) :
    parseBody (digitsOf M ++ '.' :: (digitsOf N ++ suf)) =
      .ok ⟨Int.ofNat M, Int.ofNat N, 0, String.mk suf⟩ := by
  simp only [parseBody, regexMatch_suffix M N suf h1 h2 h3, atoi_digitsOf hM,
    atoi_digitsOf hN]

/-- Decidable head condition for a shape-3 pre-release suffix: it must not
start with a digit (which would extend the minor group) nor with a dot
(which could start a patch group). -/
def suffixHeadOK : List Char → Bool
  | [] => true
  | c :: _ => !c.isDigit && (c != '.')

/-- C6: for every valid input of the shapes `go<M>.<N>`, `go<M>.<N>.<P>`
and `go<M>.<N><suffix>` (numerals in canonical decimal form and within the
64-bit `int` range, the suffix non-empty, not starting with a digit or a
dot, and containing no newline), `Parse` followed by `String` reproduces
the canonical form `<M>.<N>`, with `.<P>` appended only when `P > 0` and
the pre-release suffix appended verbatim — in particular the parsed patch
is 0 when the text omits it. -/
theorem parse_string_round_trip :
    ∀ (M N P : Nat) (suf : String),
      M ≤ maxI64 → N ≤ maxI64 → P ≤ maxI64 →
      suf ≠ "" → suffixHeadOK suf.data = true → '\n' ∉ suf.data →
      ((Parse (String.mk ('g' :: 'o' :: (digitsOf M ++ '.' :: digitsOf N))) =
          .ok ⟨Int.ofNat M, Int.ofNat N, 0, ""⟩ ∧
        Version.string ⟨Int.ofNat M, Int.ofNat N, 0, ""⟩ =
          String.mk (digitsOf M) ++ "." ++ String.mk (digitsOf N)) ∧
       (Parse (String.mk ('g' :: 'o' ::
            (digitsOf M ++ '.' :: (digitsOf N ++ '.' :: digitsOf P)))) =
          .ok ⟨Int.ofNat M, Int.ofNat N, Int.ofNat P, ""⟩ ∧
        Version.string ⟨Int.ofNat M, Int.ofNat N, Int.ofNat P, ""⟩ =
          String.mk (digitsOf M) ++ "." ++ String.mk (digitsOf N)
            ++ (if 0 < P then "." ++ String.mk (digitsOf P) else "")) ∧
       (Parse (String.mk ('g' :: 'o' ::
            (digitsOf M ++ '.' :: (digitsOf N ++ suf.data)))) =
          .ok ⟨Int.ofNat M, Int.ofNat N, 0, suf⟩ ∧
        Version.string ⟨Int.ofNat M, Int.ofNat N, 0, suf⟩ =
          String.mk (digitsOf M) ++ "." ++ String.mk (digitsOf N) ++ suf)) := by
  intro M N P suf hM hN hP hsuf hhead hnl
  have hh1 : ∀ c, suf.data.head? = some c → c.isDigit = false := by
    intro c hc
    cases hd : suf.data with
    | nil => rw [hd] at hc; cases hc
    | cons a as =>
      rw [hd] at hc
      rw [List.head?_cons, Option.some.injEq] at hc
      subst hc
      rw [hd] at hhead
      simp only [suffixHeadOK, Bool.and_eq_true] at hhead
      simpa using hhead.1
  have hh2 : ∀ c, suf.data.head? = some c → c ≠ '.' := by
    intro c hc
    cases hd : suf.data with
    | nil => rw [hd] at hc; cases hc
    | cons a as =>
      rw [hd] at hc
      rw [List.head?_cons, Option.some.injEq] at hc
      subst hc
      rw [hd] at hhead
      simp only [suffixHeadOK, Bool.and_eq_true] at hhead
      simpa using hhead.2
  refine ⟨⟨?_, ?_⟩, ⟨?_, ?_⟩, ⟨?_, ?_⟩⟩
  · rw [parse_go, parseBody_two hM hN]
  · unfold Version.string
    rw [itoa_ofNat, itoa_ofNat]
    simp
  · rw [parse_go, parseBody_three hM hN hP]
  · unfold Version.string
    rw [itoa_ofNat, itoa_ofNat]
    by_cases hp : 0 < P
    · rw [if_pos (show (Int.ofNat P : Int) > 0 by
          rw [Int.ofNat_eq_coe]; exact_mod_cast hp), if_pos hp, itoa_ofNat]
      simp
    · rw [if_neg (show ¬ ((Int.ofNat P : Int) > 0) by
          rw [Int.ofNat_eq_coe]; exact_mod_cast hp), if_neg hp]
      simp
  · rw [parse_go, parseBody_suffix hM hN suf.data hh1 hh2 hnl]
  · unfold Version.string
    rw [itoa_ofNat, itoa_ofNat]
    rw [if_pos hsuf]
    simp

/-- Witness for C6 at `go1.16`, `go1.16.1` and `go1.16beta1`. -/
theorem parse_string_round_trip_witness :
    ((Parse (String.mk ('g' :: 'o' :: (digitsOf 1 ++ '.' :: digitsOf 16))) =
        .ok ⟨Int.ofNat 1, Int.ofNat 16, 0, ""⟩ ∧
      Version.string ⟨Int.ofNat 1, Int.ofNat 16, 0, ""⟩ =
        String.mk (digitsOf 1) ++ "." ++ String.mk (digitsOf 16)) ∧
     (Parse (String.mk ('g' :: 'o' ::
          (digitsOf 1 ++ '.' :: (digitsOf 16 ++ '.' :: digitsOf 1)))) =
        .ok ⟨Int.ofNat 1, Int.ofNat 16, Int.ofNat 1, ""⟩ ∧
      Version.string ⟨Int.ofNat 1, Int.ofNat 16, Int.ofNat 1, ""⟩ =
        String.mk (digitsOf 1) ++ "." ++ String.mk (digitsOf 16)
          ++ (if 0 < 1 then "." ++ String.mk (digitsOf 1) else "")) ∧
     (Parse (String.mk ('g' :: 'o' ::
          (digitsOf 1 ++ '.' :: (digitsOf 16 ++ "beta1".data)))) =
        .ok ⟨Int.ofNat 1, Int.ofNat 16, 0, "beta1"⟩ ∧
      Version.string ⟨Int.ofNat 1, Int.ofNat 16, 0, "beta1"⟩ =
        String.mk (digitsOf 1) ++ "." ++ String.mk (digitsOf 16) ++ "beta1")) :=
  parse_string_round_trip 1 16 1 "beta1" (by decide) (by decide) (by decide)
    (by decide) (by decide) (by decide)

/-! ## Declarative grammar (claim C7) -/

/-- A valid numeral group: non-negative decimal integer with no leading
zero except the literal `"0"`. -/
def numeralOK (l : List Char) : Prop :=
  l = ['0'] ∨ (l ≠ [] ∧ (∀ c ∈ l, c.isDigit = true) ∧ l.head? ≠ some '0')

/-- The grammar the regex actually accepts: `major "." minor` followed by
arbitrary text that contains no newline (RE2's `.` does not match `'\n'`
and `$` anchors at end of text).  The optional patch group needs no
separate clause: when it participates it is part of the trailing text of a
shorter minor choice. -/
def grammarOK (l : List Char) : Prop :=
  ∃ a b c, l = a ++ '.' :: (b ++ c) ∧ numeralOK a ∧ numeralOK b ∧ '\n' ∉ c

/-- The grammar exactly as claim C7 words it: `major "." minor` followed
by arbitrary trailing text, with no restriction on newlines. -/
def grammarSpec (l : List Char) : Prop :=
  ∃ a b c, l = a ++ '.' :: (b ++ c) ∧ numeralOK a ∧ numeralOK b

/-- The in-range condition of `strconv.Atoi` on the groups the regex
actually matched. -/
def groupsFit (l : List Char) : Prop :=
  match regexMatch l with
  | none => True
  | some (a, b, none, _) =>
      toNatOfDigits a ≤ maxI64 ∧ toNatOfDigits b ≤ maxI64
  | some (a, b, some q, _) =>
      toNatOfDigits a ≤ maxI64 ∧ toNatOfDigits b ≤ maxI64 ∧
        toNatOfDigits q ≤ maxI64

lemma numeralOK_digits {l : List Char} (h : numeralOK l) :
    ∀ c ∈ l, c.isDigit = true := by
  rcases h with rfl | ⟨_, hall, _⟩
  · intro c hc
    rw [List.mem_singleton] at hc
    subst hc
    decide
  · exact hall

lemma numGroup_sound {l g r : List Char} (h : numGroup l = some (g, r)) :
    l = g ++ r ∧ numeralOK g := by
  cases l with
  | nil => cases h
  | cons c cs =>
    by_cases h0 : c = '0'
    · subst h0
      simp only [numGroup, if_pos rfl, Option.some.injEq, Prod.mk.injEq] at h
      obtain ⟨rfl, rfl⟩ := h
      exact ⟨rfl, Or.inl rfl⟩
    · by_cases hdig : c.isDigit = true
      · simp only [numGroup, if_neg h0, hdig, if_true, Option.some.injEq,
          Prod.mk.injEq] at h
        obtain ⟨rfl, rfl⟩ := h
        refine ⟨(List.takeWhile_append_dropWhile Char.isDigit (c :: cs)).symm,
          Or.inr ⟨?_, ?_, ?_⟩⟩
        · rw [List.takeWhile_cons, hdig]
          exact List.cons_ne_nil _ _
        · intro x hx
          exact List.mem_takeWhile_imp hx
        · rw [List.takeWhile_cons, hdig]
          show some c ≠ some '0'
          exact fun he => h0 (Option.some.inj he)
      · simp only [numGroup, if_neg h0, hdig, if_false] at h
        cases h

/-- A numeral group at the head, followed by text that does not start with
a digit, matches exactly that numeral. -/
lemma numGroup_numeral {a : List Char} (ha : numeralOK a) (r : List Char)
    (hr : ∀ c, r.head? = some c → c.isDigit = false) :
    numGroup (a ++ r) = some (a, r) := by
  rcases ha with rfl | ⟨hne, hall, hhead⟩
  · cases r with
    | nil => rfl
    | cons c cs => rfl
  · cases a with
    | nil => exact absurd rfl hne
    | cons c cs =>
      have hc : c.isDigit = true := hall c (List.mem_cons_self c cs)
      have hc0 : c ≠ '0' := fun he => hhead (by rw [List.head?_cons, he])
      rw [List.cons_append]
      show numGroup (c :: (cs ++ r)) = some (c :: cs, r)
      simp only [numGroup]
      rw [if_neg hc0, if_pos hc]
      rw [show c :: (cs ++ r) = (c :: cs) ++ r from rfl]
      rw [takeWhile_append_all _ _ _ (fun x hx => hall x hx) hr,
        dropWhile_append_all _ _ _ (fun x hx => hall x hx) hr]

lemma dropWhile_append_drop (p : Char → Bool) : ∀ (b cc : List Char),
    (∀ c ∈ b, p c = true) → (b ++ cc).dropWhile p = cc.dropWhile p := by
  intro b
  induction b with
  | nil => intro cc _; rfl
  | cons x xs ih =>
    intro cc hb
    rw [List.cons_append, List.dropWhile_cons, hb x (List.mem_cons_self x xs)]
    show (xs ++ cc).dropWhile p = cc.dropWhile p
    exact ih cc (fun c hc => hb c (List.mem_cons_of_mem x hc))

/-- A numeral group at the head of `b ++ cc` matches some (possibly
longer) digit run whose remainder is a suffix of `cc`. -/
lemma numGroup_numeral_front {b : List Char} (hb : numeralOK b) (cc : List Char) :
    ∃ g r, numGroup (b ++ cc) = some (g, r) ∧ r <:+ cc := by
  rcases hb with rfl | ⟨hne, hall, hhead⟩
  · exact ⟨['0'], cc, rfl, List.suffix_refl cc⟩
  · cases b with
    | nil => exact absurd rfl hne
    | cons c cs =>
      have hc : c.isDigit = true := hall c (List.mem_cons_self c cs)
      have hc0 : c ≠ '0' := fun he => hhead (by rw [List.head?_cons, he])
      refine ⟨((c :: cs) ++ cc).takeWhile Char.isDigit,
        ((c :: cs) ++ cc).dropWhile Char.isDigit, ?_, ?_⟩
      · rw [List.cons_append]
        show numGroup (c :: (cs ++ cc)) = _
        simp only [numGroup]
        rw [if_neg hc0, if_pos hc]
      · rw [dropWhile_append_drop _ _ _ hall]
        exact List.dropWhile_suffix Char.isDigit

/-- A successful `regexTail` requires the remaining text to be free of
newlines. -/
lemma regexTail_nl {maj minr r3 : List Char} {t}
    (h : regexTail maj minr r3 = some t) : '\n' ∉ r3 := by
  cases r3 with
  | nil => simp
  | cons d r4 =>
    by_cases hd : d = '.'
    · subst hd
      cases h3 : numGroup r4 with
      | some p3 =>
        obtain ⟨pat, r5⟩ := p3
        simp only [regexTail, if_true, h3] at h
        split_ifs at h with hm
        obtain ⟨hl3, hn3⟩ := numGroup_sound h3
        intro hmem
        rcases List.mem_cons.mp hmem with he | hmem2
        · exact absurd he (by decide)
        · rw [hl3] at hmem2
          rcases List.mem_append.mp hmem2 with hp | hp
          · exact absurd (numeralOK_digits hn3 _ hp) (by decide)
          · exact hm hp
      | none =>
        simp only [regexTail, if_true, h3] at h
        split_ifs at h with hm
        exact hm
    · simp only [regexTail, if_neg hd] at h
      split_ifs at h with hm
      exact hm

/-- `regexTail` succeeds whenever the remaining text is free of
newlines. -/
lemma regexTail_complete (maj minr : List Char) {r3 : List Char}
    (h : '\n' ∉ r3) : ∃ t, regexTail maj minr r3 = some t := by
  cases r3 with
  | nil => exact ⟨_, rfl⟩
  | cons d r4 =>
    by_cases hd : d = '.'
    · subst hd
      cases h3 : numGroup r4 with
      | some p3 =>
        obtain ⟨pat, r5⟩ := p3
        have hr5 : '\n' ∉ r5 := by
          intro hm
          apply h
          obtain ⟨hl3, -⟩ := numGroup_sound h3
          exact List.mem_cons_of_mem _ (by rw [hl3]; exact List.mem_append_right _ hm)
        exact ⟨(maj, minr, some pat, r5),
          by simp only [regexTail, if_true, h3, if_neg hr5]⟩
      | none =>
        exact ⟨(maj, minr, none, '.' :: r4),
          by simp only [regexTail, if_true, h3, if_neg h]⟩
    · exact ⟨(maj, minr, none, d :: r4),
        by simp only [regexTail, if_neg hd, if_neg h]⟩

/-- Soundness of the regex: a successful match implies the grammar
(including the no-newline condition on the trailing text). -/
lemma regexMatch_sound {l : List Char} {t} (h : regexMatch l = some t) :
    grammarOK l := by
  cases h1 : numGroup l with
  | none =>
    simp only [regexMatch, h1] at h
    exact absurd h (by simp)
  | some p1 =>
    obtain ⟨maj, r1⟩ := p1
    cases r1 with
    | nil =>
      simp only [regexMatch, h1] at h
      exact absurd h (by simp)
    | cons c r2 =>
      by_cases hc : c = '.'
      · subst hc
        cases h2 : numGroup r2 with
        | none =>
          simp only [regexMatch, h1, if_true, h2] at h
          exact absurd h (by simp)
        | some p2 =>
          obtain ⟨minr, r3⟩ := p2
          obtain ⟨hl1, hnum1⟩ := numGroup_sound h1
          obtain ⟨hl2, hnum2⟩ := numGroup_sound h2
          simp only [regexMatch, h1, if_true, h2] at h
          exact ⟨maj, minr, r3, by rw [hl1, hl2], hnum1, hnum2, regexTail_nl h⟩
      · simp only [regexMatch, h1, if_neg hc] at h
        exact absurd h (by simp)

/-- Completeness of the regex: the grammar implies a successful match. -/
lemma regexMatch_complete {l : List Char} (h : grammarOK l) :
    ∃ t, regexMatch l = some t := by
  obtain ⟨a, b, cc, rfl, hna, hnb, hcc⟩ := h
  have h1 : numGroup (a ++ '.' :: (b ++ cc)) = some (a, '.' :: (b ++ cc)) :=
    numGroup_numeral hna _ (head_nd_dot _)
  obtain ⟨g, r, h2, hsuf⟩ := numGroup_numeral_front hnb cc
  have hr : '\n' ∉ r := fun hm => hcc (hsuf.sublist.mem hm)
  obtain ⟨t, ht⟩ := regexTail_complete a g hr
  exact ⟨t, by simp only [regexMatch, h1, if_true, h2, ht]⟩

lemma atoi_of_le {l : List Char} (h : toNatOfDigits l ≤ maxI64) :
    atoi l = some (Int.ofNat (toNatOfDigits l)) := by
  unfold atoi
  rw [if_pos h]

lemma atoi_of_gt {l : List Char} (h : ¬ toNatOfDigits l ≤ maxI64) :
    atoi l = none := by
  unfold atoi
  rw [if_neg h]

lemma parseBody_ok_iff (body : List Char) :
    (∃ v, parseBody body = .ok v) ↔ (grammarOK body ∧ groupsFit body) := by
  constructor
  · rintro ⟨v, hv⟩
    cases hm : regexMatch body with
    | none =>
      simp only [parseBody, hm] at hv
      exact absurd hv (by simp)
    | some t =>
      obtain ⟨maj, minr, patOpt, pre⟩ := t
      refine ⟨regexMatch_sound hm, ?_⟩
      unfold groupsFit
      rw [hm]
      simp only [parseBody, hm] at hv
      by_cases ha : toNatOfDigits maj ≤ maxI64
      · simp only [atoi_of_le ha] at hv
        by_cases hb : toNatOfDigits minr ≤ maxI64
        · simp only [atoi_of_le hb] at hv
          cases patOpt with
          | none => exact ⟨ha, hb⟩
          | some pat =>
            refine ⟨ha, hb, ?_⟩
            by_cases hp : toNatOfDigits pat ≤ maxI64
            · exact hp
            · simp only [atoi_of_gt hp] at hv
              exact absurd hv (by simp)
        · simp only [atoi_of_gt hb] at hv
          exact absurd hv (by simp)
      · simp only [atoi_of_gt ha] at hv
        exact absurd hv (by simp)
  · rintro ⟨hg, hf⟩
    obtain ⟨t, hm⟩ := regexMatch_complete hg
    obtain ⟨maj, minr, patOpt, pre⟩ := t
    unfold groupsFit at hf
    rw [hm] at hf
    cases patOpt with
    | none =>
      obtain ⟨ha, hb⟩ := hf
      exact ⟨⟨Int.ofNat (toNatOfDigits maj), Int.ofNat (toNatOfDigits minr), 0,
          String.mk pre⟩,
        by simp only [parseBody, hm, atoi_of_le ha, atoi_of_le hb]⟩
    | some pat =>
      obtain ⟨ha, hb, hp⟩ := hf
      exact ⟨⟨Int.ofNat (toNatOfDigits maj), Int.ofNat (toNatOfDigits minr),
          Int.ofNat (toNatOfDigits pat), String.mk pre⟩,
        by simp only [parseBody, hm, atoi_of_le ha, atoi_of_le hb, atoi_of_le hp]⟩

/-- C7 (amended): `Parse` succeeds exactly when the input has the `"go"`
prefix, the remainder matches the grammar `major "." minor` followed by
trailing text that contains no newline (major/minor non-negative decimal
integers with no leading zero except the literal `"0"`; RE2's `.` does not
match a newline, so a pre-release containing one makes the whole regex
fail), and every numeric group the regex matched converts within the
64-bit integer range; in every other case it fails with a `ParseError`.
On success the patch defaults to 0 when the patch group is absent from the
textual form. -/
theorem parse_failure_conditions :
    ∀ s : String,
      ((∃ v, Parse s = .ok v) ↔
        (∃ body, s.data = 'g' :: 'o' :: body ∧ grammarOK body ∧ groupsFit body)) ∧
      (∀ body maj minr pre v, s.data = 'g' :: 'o' :: body →
        regexMatch body = some (maj, minr, none, pre) →
        Parse s = .ok v → v.Patch = 0) := by
  intro s
  constructor
  · cases hs : s.data with
    | nil =>
      simp only [Parse, hs]
      constructor
      · rintro ⟨v, hv⟩; cases hv
      · rintro ⟨body, hbody, -⟩; cases hbody
    | cons c1 t1 =>
      cases t1 with
      | nil =>
        simp only [Parse, hs]
        constructor
        · rintro ⟨v, hv⟩; cases hv
        · rintro ⟨body, hbody, -⟩; cases hbody
      | cons c2 body =>
        by_cases hgo : c1 = 'g' ∧ c2 = 'o'
        · obtain ⟨rfl, rfl⟩ := hgo
          simp only [Parse, hs, and_self, if_true]
          rw [parseBody_ok_iff]
          constructor
          · intro hb
            exact ⟨body, rfl, hb⟩
          · rintro ⟨body2, hbody2, hb⟩
            obtain rfl : body2 = body := by
              injection hbody2 with _ h2
              injection h2 with _ h3
              exact h3.symm
            exact hb
        · simp only [Parse, hs, if_neg hgo]
          constructor
          · rintro ⟨v, hv⟩; cases hv
          · rintro ⟨body2, hbody2, -⟩
            injection hbody2 with e1 h2
            injection h2 with e2 _
            exact (hgo ⟨e1, e2⟩).elim
  · intro body maj minr pre v hs hm hv
    simp only [Parse, hs, and_self, if_true] at hv
    simp only [parseBody, hm] at hv
    by_cases ha : toNatOfDigits maj ≤ maxI64
    · simp only [atoi_of_le ha] at hv
      by_cases hb : toNatOfDigits minr ≤ maxI64
      · simp only [atoi_of_le hb] at hv
        cases hv
        rfl
      · simp only [atoi_of_gt hb] at hv
        exact absurd hv (by simp)
    · simp only [atoi_of_gt ha] at hv
      exact absurd hv (by simp)

/-- Counterexample to C7 as stated: `"go1.16\n"` has the `"go"` prefix,
matches the claim's grammar (major `1`, minor `16`, trailing text `"\n"`),
and no numeric group fails to convert — yet `Parse` fails, because RE2's
`(.*)$` cannot consume the newline. -/
theorem parse_newline_cex :
    Parse "go1.16\n" =
      .error ("parse: unable to parse version " ++ String.mk "1.16\n".data) ∧
    "go1.16\n".data = 'g' :: 'o' :: "1.16\n".data ∧
    grammarSpec ("1.16\n".data) ∧
    groupsFit ("1.16\n".data) := by
  refine ⟨rfl, rfl, ⟨['1'], ['1', '6'], ['\n'], rfl, ?_, ?_⟩, ?_⟩
  · right
    refine ⟨by decide, by decide, by decide⟩
  · right
    refine ⟨by decide, by decide, by decide⟩
  · show groupsFit ("1.16\n".data)
    have : regexMatch ("1.16\n".data) = none := by decide
    unfold groupsFit
    rw [this]
    trivial

/-- Witness for C7: the success side of the iff at `"go1.16"`. -/
theorem parse_failure_conditions_witness :
    ∃ v, Parse "go1.16" = .ok v :=
  (parse_failure_conditions "go1.16").1.mpr
    ⟨"1.16".data, rfl,
      ⟨['1'], ['1', '6'], [], rfl,
        Or.inr ⟨by decide, by decide, by decide⟩,
        Or.inr ⟨by decide, by decide, by decide⟩, by decide⟩,
      by
        have : regexMatch ("1.16".data) =
            some (['1'], ['1', '6'], none, []) := by decide
        unfold groupsFit
        rw [this]
        exact ⟨by decide, by decide⟩⟩

/-- C9 (amended): `ParseLine` locates the version token positionally — the
third whitespace-separated field, or the fourth when the third is the
literal `"devel"` — and delegates that token to `Parse`, so it returns a
Version or a ParseError for every line that has enough fields; but on a
line with fewer than three fields, or with exactly three when the third is
`"devel"`, the unchecked indexing `fields[2]` / `fields[3]` panics with an
index-out-of-range run-time error (modelled as `none`) rather than
returning a ParseError. -/
theorem parseLine_positional :
    ∀ line : String,
      (∀ tok, (fields line).get? 2 = some tok → tok ≠ "devel" →
        ParseLine line = some (Parse tok)) ∧
      (∀ tok2, (fields line).get? 2 = some "devel" →
        (fields line).get? 3 = some tok2 →
        ParseLine line = some (Parse tok2)) ∧
      ((fields line).get? 2 = none → ParseLine line = none) ∧
      ((fields line).get? 2 = some "devel" → (fields line).get? 3 = none →
        ParseLine line = none) := by
  intro line
  refine ⟨?_, ?_, ?_, ?_⟩
  · intro tok h2 hnd
    simp only [ParseLine, h2, if_neg hnd]
  · intro tok2 h2 h3
    simp only [ParseLine, h2, if_true, h3]
  · intro h2
    simp only [ParseLine, h2]
  · intro h2 h3
    simp only [ParseLine, h2, if_true, h3]

/-- Counterexample to C9 as stated: on a line with fewer than three
whitespace-separated fields — or exactly three when the third is
`"devel"` — `ParseLine` indexes past the end of the field slice and
panics, returning neither a Version nor a ParseError. -/
theorem parseLine_short_line_cex :
    ParseLine "" = none ∧ ParseLine "go version" = none ∧
    ParseLine "go version devel" = none :=
  ⟨rfl, rfl, rfl⟩

/-- Witness for C9 at the two self-report shapes. -/
theorem parseLine_positional_witness :
    ParseLine "go version go1.16 linux/amd64" = some (Parse "go1.16") ∧
    ParseLine "go version devel go1.18-abc Tue linux/amd64" =
      some (Parse "go1.18-abc") :=
  ⟨(parseLine_positional "go version go1.16 linux/amd64").1 "go1.16" rfl
      (by decide),
   (parseLine_positional "go version devel go1.18-abc Tue linux/amd64").2.1
      "go1.18-abc" rfl rfl⟩

end GoCompatible
